import Mathlib

/-!
Verification of the schema-search retrieval pipeline.

Shallow embedding of the core components of the `schema_search` package:
the chunker (`chunker.py`, `chunkers/base.py`), the foreign-key relationship
graph (`graph_builder.py`), the BM25-hybrid ranker (`ranker.py`), the hybrid
search strategy (`search/hybrid.py`), the embedding cache
(`embedding_manager.py`) and the search orchestrator (`schema_search.py`).

Python strings are modelled as `List Char` (named `Str` below) so that
word-count and character-count token estimation can be reasoned about
directly.  Real arithmetic (numpy floats) is modelled over `ℚ`.  External
collaborators (the sentence-transformer embedding model, the `rank_bm25`
library, the fuzzy matcher) are threaded through as explicit function
parameters: they are producers of opaque numeric signals, exactly as the
spec treats them.
-/

/-- Python strings, modelled as character lists. -/
abbrev Str := List Char

/-- The whitespace characters recognised by Python's `str.split()`
(restricted to the ASCII range, which is all the rendering code emits). -/
def isWs (c : Char) : Bool :=
  c = ' ' ∨ c = '\t' ∨ c = '\n' ∨ c = '\r' ∨ c = '\x0b' ∨ c = '\x0c'

/-- Number of whitespace-separated words, as a left-to-right scan.  The
`inWord` flag records whether the previous character was inside a word;
a word is counted at each transition from outside to inside. -/
def countWordsAux : Bool → Str → Nat
  | _, [] => 0
  | inWord, c :: cs =>
    if isWs c then countWordsAux false cs
    else (if inWord then 0 else 1) + countWordsAux true cs

/-- `len(text.split())` from Python: the number of maximal whitespace-free runs. -/
def countWords (s : Str) : Nat := countWordsAux false s

/-- `Chunker._estimate_tokens`: `len(text.split()) + len(text) // 4`. -/
def estimate_tokens (s : Str) : Nat := countWords s + s.length / 4

/-- `"\n".join(lines)` from Python. -/
def joinNl : List Str → Str
  | [] => []
  | [l] => l
  | l :: ls => l ++ '\n' :: joinNl ls

/-- `text.split("\n")` from Python (keeps empty fields). -/
def splitNl (s : Str) : List Str := s.splitOn '\n'

/-- Sum of per-line token estimates: the quantity the chunking loop
accumulates while filling a chunk. -/
def sumEst (ls : List Str) : Nat := (ls.map estimate_tokens).sum


/-! ## Chunker (`src/schema_search/chunker.py`)

`Chunker._to_markdown` renders one table's metadata as a list of lines that
is then joined with newlines; `Chunker._chunk_table` splits the rendered
text back into lines and accumulates them into token-bounded chunks.  Only
the fields `_to_markdown` reads are modelled: column names, referred table
names of foreign keys, and index names. -/

/-- The slice of one table's metadata dictionary read by `_to_markdown`. -/
structure TableInfo where
  columns : List Str
  foreign_keys : List Str
  indices : List Str

/-- `@dataclass Chunk` from `chunker.py`. -/
structure Chunk where
  table_name : Str
  content : Str
  chunk_id : Nat
  token_count : Nat
deriving DecidableEq

instance : Inhabited Chunk := ⟨⟨[], [], 0, 0⟩⟩

/-- `", ".join(batch)` from Python. -/
def joinCommaSpace : List Str → Str
  | [] => []
  | [l] => l
  | l :: ls => l ++ ',' :: ' ' :: joinCommaSpace ls

/-- The `range(0, len(col_names), cols_per_line)` batching of `_to_markdown`
with `cols_per_line = 10`.  The fuel argument (instantiated with the list
length, enough for every slice since each step consumes at least one
element) keeps the recursion structural. -/
def groupsOf10Aux : Nat → List Str → List (List Str)
  | 0, _ => []
  | _, [] => []
  | fuel + 1, x :: xs => (x :: xs).take 10 :: groupsOf10Aux fuel ((x :: xs).drop 10)

/-- Slices `[l[0:10], l[10:20], ...]` of the column-name list. -/
def groupsOf10 (l : List Str) : List (List Str) := groupsOf10Aux l.length l

/-- The line list built by `Chunker._to_markdown` before the final
`"\n".join(lines)`. -/
def to_markdown_lines (table_name : Str) (info : TableInfo) : List Str :=
  ("Table: ".data ++ table_name) ::
    ((if info.columns ≠ [] then
        (groupsOf10 info.columns).map (fun batch => "Columns:".data ++ joinCommaSpace batch)
      else []) ++
     (if info.foreign_keys ≠ [] then
        ["Related to: ".data ++ joinCommaSpace info.foreign_keys]
      else []) ++
     (if info.indices ≠ [] then
        (let idx_names := info.indices.filter (fun n => n ≠ [])
         if idx_names ≠ [] then ["Indexes: ".data ++ joinCommaSpace idx_names] else [])
      else []))

/-- `Chunker._to_markdown`. -/
def to_markdown (table_name : Str) (info : TableInfo) : Str :=
  joinNl (to_markdown_lines table_name info)

/-- The accumulation loop of `Chunker._chunk_table`: `lines` are the rendered
lines still to be placed, `cur`/`cur_tokens` the chunk under construction and
its token count, `cid` the next chunk id.  A chunk closes when the next line
would push it past `max_tokens` and it already holds more than the header. -/
def chunk_table_aux (tname header : Str) (maxTokens : Nat) :
    List Str → List Str → Nat → Nat → List Chunk
  | [], cur, curTokens, cid =>
    if 1 < cur.length then [⟨tname, joinNl cur, cid, curTokens⟩] else []
  | l :: ls, cur, curTokens, cid =>
    if maxTokens < curTokens + estimate_tokens l ∧ 1 < cur.length then
      ⟨tname, joinNl cur, cid, curTokens⟩ ::
        chunk_table_aux tname header maxTokens ls [header, l]
          (estimate_tokens header + estimate_tokens l) (cid + 1)
    else
      chunk_table_aux tname header maxTokens ls (cur ++ [l])
        (curTokens + estimate_tokens l) cid

/-- `Chunker._chunk_table` (structured-rendering path, `use_llm_summary`
false): render, split into lines, skip the first line (the header is added
manually) and accumulate. -/
def chunk_table (table_name : Str) (info : TableInfo) (maxTokens startId : Nat) :
    List Chunk :=
  let markdown := to_markdown table_name info
  let lines := splitNl markdown
  let header := "Table: ".data ++ table_name
  chunk_table_aux table_name header maxTokens (lines.drop 1) [header]
    (estimate_tokens header) startId

/-! ## Base chunker (`src/schema_search/chunkers/base.py`)

`BaseChunker._chunk_table` runs the same accumulation loop as
`Chunker._chunk_table` but scopes chunk ids as `schema.table.N` strings and
uses a two-line `Schema: s\nTable: t` header.  Content generation
(`_generate_content`) is subclass-provided (the markdown/llm subclasses are
not part of the core), so the rendered content is taken as an argument. -/

/-- `@dataclass Chunk` from `chunkers/base.py`. -/
structure SChunk where
  schema_name : Str
  table_name : Str
  content : Str
  chunk_id : Str
  token_count : Nat
deriving DecidableEq

instance : Inhabited SChunk := ⟨⟨[], [], [], [], 0⟩⟩

/-- Decimal digits of `n`, most significant first: the reference function the
kernel of `Nat.repr` / `Nat.toDigits` is proved equal to below. -/
def dig10 (n : Nat) : Str :=
  if _h : n < 10 then [Nat.digitChar n]
  else dig10 (n / 10) ++ [Nat.digitChar (n % 10)]
termination_by n
decreasing_by exact Nat.div_lt_self (by omega) (by omega)

/-- The f-string `f"{schema_name}.{table_name}.{chunk_idx}"`. -/
def mk_chunk_id (schema_name table_name : Str) (i : Nat) : Str :=
  schema_name ++ '.' :: table_name ++ '.' :: Nat.toDigits 10 i

/-- The accumulation loop of `BaseChunker._chunk_table`. -/
def base_chunk_table_aux (schema_name table_name header : Str) (maxTokens : Nat) :
    List Str → List Str → Nat → Nat → List SChunk
  | [], cur, curTokens, cidx =>
    if 1 < cur.length then
      [⟨schema_name, table_name, joinNl cur, mk_chunk_id schema_name table_name cidx,
        curTokens⟩]
    else []
  | l :: ls, cur, curTokens, cidx =>
    if maxTokens < curTokens + estimate_tokens l ∧ 1 < cur.length then
      ⟨schema_name, table_name, joinNl cur, mk_chunk_id schema_name table_name cidx,
        curTokens⟩ ::
        base_chunk_table_aux schema_name table_name header maxTokens ls [header, l]
          (estimate_tokens header + estimate_tokens l) (cidx + 1)
    else
      base_chunk_table_aux schema_name table_name header maxTokens ls (cur ++ [l])
        (curTokens + estimate_tokens l) cidx

/-- `BaseChunker._chunk_table`, applied to the subclass-rendered `content`. -/
def base_chunk_table (schema_name table_name content : Str) (maxTokens : Nat) :
    List SChunk :=
  let lines := splitNl content
  let header := "Schema: ".data ++ schema_name ++ '\n' :: ("Table: ".data ++ table_name)
  base_chunk_table_aux schema_name table_name header maxTokens (lines.drop 1) [header]
    (estimate_tokens header) 0

/-! ## Relationship graph (`src/schema_search/graph_builder.py`)

`GraphBuilder.get_neighbors` takes the union of two
`networkx.single_source_shortest_path_length(·, cutoff=hops)` calls, one on
the graph and one on its reverse, and removes the origin.  A shortest-path
ball with cutoff `h` is exactly the set of nodes reachable within `h` steps,
computed here by iterated frontier expansion.  Node labels are kept
abstract (`networkx` hashables; qualified table-name strings in the repo). -/

/-- A directed graph as `networkx.DiGraph` stores it: nodes plus edges. -/
structure Graph (α : Type) where
  nodes : List α
  edges : List (α × α)

/-- Successors of `v`: targets of the edges leaving `v`. -/
def succSet [DecidableEq α] (g : Graph α) (v : α) : List α :=
  ((g.edges.filter (fun e => e.1 = v)).map Prod.snd).dedup

/-- Predecessors of `v`: sources of the edges entering `v` (successors in the
reversed graph). -/
def predSet [DecidableEq α] (g : Graph α) (v : α) : List α :=
  ((g.edges.filter (fun e => e.2 = v)).map Prod.fst).dedup

/-- Nodes reachable from `s` in at most `n` applications of `step`: the
shortest-path-length ball of radius `n`, as a duplicate-free list. -/
def ball [DecidableEq α] (step : α → List α) : Nat → α → List α
  | 0, s => [s]
  | n + 1, s =>
    (ball step n s ++ (ball step n s).flatMap step).dedup

/-- `GraphBuilder.get_neighbors`: empty for a table not in the graph,
otherwise the union of the forward ball and the backward ball with the
origin discarded (the lists are duplicate-free, so one `erase` is the
set-theoretic discard). -/
def get_neighbors [DecidableEq α] (g : Graph α) (t : α) (hops : Nat) : List α :=
  if t ∈ g.nodes then
    ((ball (succSet g) hops t ++ ball (predSet g) hops t).dedup).erase t
  else []

/-- A chain of exactly `k` traversals of the relation `E` from `a` to `b`. -/
def chainN (E : α → α → Prop) : Nat → α → α → Prop
  | 0, a, b => b = a
  | k + 1, a, b => ∃ v, chainN E k a v ∧ E v b

/-- Modelled from the spec sentence behind claim C2, read literally: the set
of tables reachable from `t` within `hops` edge traversals where **each
traversal may follow an edge in either direction**, with `t` excluded.  This
is the mixed-direction ball; the code's `get_neighbors` is compared to it. -/
def spec_neighbors_mixed [DecidableEq α] (g : Graph α) (t : α) (hops : Nat) : List α :=
  ((ball (fun v => (succSet g v ++ predSet g v).dedup) hops t).dedup).erase t

/-! ## Ranker (`src/schema_search/ranker.py`)

`Ranker` holds a BM25 index (the external `rank_bm25.BM25Okapi` object,
modelled as an opaque query-tokens-to-scores function produced by an
external constructor parameter) and the chunk list; both are `None` until
`build_bm25` runs. -/

/-- `text.lower()` (ASCII case folding). -/
def pyLower (s : Str) : Str := s.map Char.toLower

/-- `text.split()`: split on whitespace runs, dropping empty fields.
`acc` is the word currently being read, in reverse. -/
def pySplitAux : Str → Str → List Str
  | [], acc => if acc = [] then [] else [acc.reverse]
  | c :: cs, acc =>
    if isWs c then
      (if acc = [] then pySplitAux cs [] else acc.reverse :: pySplitAux cs [])
    else pySplitAux cs (c :: acc)

/-- Python `text.split()`. -/
def pySplit (s : Str) : List Str := pySplitAux s []

/-- Python `max(seq)` / `np.max` over rationals (the empty case raises in
Python; every use below is over a non-empty sequence). -/
def pyMax : List ℚ → ℚ
  | [] => 0
  | x :: xs => xs.foldl max x

/-- Python `min(seq)` / `np.min` over rationals (same empty-case caveat). -/
def pyMin : List ℚ → ℚ
  | [] => 0
  | x :: xs => xs.foldl min x

/-- `class Ranker` state: search weights from the config plus the two fields
set by `build_bm25` (both `None` after `__init__`). -/
structure Ranker where
  embedding_weight : ℚ
  bm25_weight : ℚ
  bm25 : Option (List Str → List ℚ)
  chunks : Option (List Chunk)

/-- `Ranker.build_bm25`: tokenize every chunk's content and hand the corpus
to the external `BM25Okapi` constructor `bm25Okapi`. -/
def build_bm25 (bm25Okapi : List (List Str) → List Str → List ℚ)
    (r : Ranker) (chunks : List Chunk) : Ranker :=
  let tokens := chunks.map (fun c => pySplit (pyLower c.content))
  { r with chunks := some chunks, bm25 := some (bm25Okapi tokens) }

/-- `embeddings @ query_embedding.T` row entry: a dot product. -/
def dot (a b : List ℚ) : ℚ := (List.zipWith (· * ·) a b).sum

/-- `np.argsort` ascending over the scores, then `[::-1]`. -/
def argsortDesc (scores : List ℚ) : List Nat :=
  (List.insertionSort (fun i j => scores.getD i 0 ≤ scores.getD j 0)
    (List.range scores.length)).reverse

/-- `Ranker.rank`: a precondition error before `build_bm25`; otherwise
combine the embedding dot-product scores with max-normalized BM25 scores
and return every chunk index with its scores, best combined score first. -/
def Ranker.rank (r : Ranker) (query : Str) (query_embedding : List ℚ)
    (embeddings : List (List ℚ)) : Except String (List (Nat × ℚ × ℚ × ℚ)) :=
  match r.bm25 with
  | none => .error "BM25 index not built. Call build_bm25() first"
  | some get_scores =>
    let embedding_scores := embeddings.map (fun e => dot e query_embedding)
    let bm25_scores := get_scores (pySplit (pyLower query))
    let bm25_scores_norm := bm25_scores.map (fun s => s / (pyMax bm25_scores + 1 / 100000000))
    let combined_scores := List.zipWith
      (fun e b => r.embedding_weight * e + r.bm25_weight * b)
      embedding_scores bm25_scores_norm
    .ok ((argsortDesc combined_scores).map
      (fun i => (i, combined_scores.getD i 0, embedding_scores.getD i 0,
        bm25_scores_norm.getD i 0)))

/-- `defaultdict(list)` append: extend the entry for `key` by `i`, keeping
first-appearance key order (Python dict insertion order). -/
def upsertIdx (acc : List (Str × List Nat)) (key : Str) (i : Nat) :
    List (Str × List Nat) :=
  match acc with
  | [] => [(key, [i])]
  | (k, v) :: rest =>
    if k = key then (k, v ++ [i]) :: rest else (k, v) :: upsertIdx rest key i

/-- `Ranker.get_top_tables_from_chunks`: group ranked chunk indices by table
name, score each table by `max(ranked_chunks[idx][1] for idx in chunk_indices)`
— note this indexes the ranked list **positionally** by chunk index — then
keep the `top_k` highest-scored tables (Python's `sorted` is stable) with
their chunk indices.  Out-of-range indexing raises in Python, modelled as
errors. -/
def get_top_tables_from_chunks (r : Ranker) (ranked_chunks : List (Nat × ℚ × ℚ × ℚ))
    (top_k : Nat) : Except String (List (Str × List Nat)) :=
  match r.chunks with
  | none => .error "Chunks not initialized. Call build_bm25() first"
  | some chunks =>
    if ¬ (ranked_chunks.all (fun t => t.1 < chunks.length)) then
      .error "IndexError: chunk index out of range"
    else
      let table_to_chunk_indices := ranked_chunks.foldl
        (fun acc t => upsertIdx acc (chunks.getD t.1 default).table_name t.1) []
      if ¬ (table_to_chunk_indices.all (fun p => p.2.all (fun i => i < ranked_chunks.length))) then
        .error "IndexError: list index out of range"
      else
        let table_scores := table_to_chunk_indices.map
          (fun p => (p.1, pyMax (p.2.map (fun idx => (ranked_chunks.getD idx default).2.1))))
        let top_tables := (List.insertionSort (fun a b => b.2 ≤ a.2) table_scores).take top_k
        .ok (top_tables.map (fun p => (p.1, (List.lookup p.1 table_to_chunk_indices).getD [])))

/-- Modelled from the spec: the aggregation `get_top_tables_from_chunks` is
specified to perform — each table scored by the **maximum combined score
among its chunks** in the ranked list (scores looked up by chunk index in
the ranked tuples, not by list position), top `top_k` tables kept with all
their matched chunk indices. -/
def spec_top_tables (chunks : List Chunk) (ranked : List (Nat × ℚ × ℚ × ℚ))
    (top_k : Nat) : List (Str × List Nat) :=
  let table_to_chunk_indices := ranked.foldl
    (fun acc t => upsertIdx acc (chunks.getD t.1 default).table_name t.1) []
  let score_of_chunk : Nat → ℚ := fun idx =>
    (((ranked.filter (fun t => t.1 = idx)).map (fun t => t.2.1)).head?).getD 0
  let table_scores := table_to_chunk_indices.map
    (fun p => (p.1, pyMax (p.2.map score_of_chunk)))
  ((List.insertionSort (fun a b => b.2 ≤ a.2) table_scores).take top_k).map
    (fun p => (p.1, (List.lookup p.1 table_to_chunk_indices).getD []))

/-! ## Hybrid strategy (`src/schema_search/search/hybrid.py`)

`HybridSearchStrategy._initial_ranking` min-max normalizes the semantic and
fuzzy score vectors independently and blends them with the weights fixed at
construction; the constructor asserts `0 <= semantic_weight <= 1`.  The raw
semantic scores (`compute_similarities`) and fuzzy scores (`rapidfuzz`) are
external numeric signals and enter as the two score vectors. -/

/-- The min-max normalization step of `_initial_ranking`: map onto `[0,1]`,
or onto all zeros when the score range is zero. -/
def min_max_normalize (xs : List ℚ) : List ℚ :=
  let mn := pyMin xs
  let mx := pyMax xs
  if 0 < mx - mn then xs.map (fun x => (x - mn) / (mx - mn)) else xs.map (fun _ => 0)

/-- The weight state fixed by `HybridSearchStrategy.__init__`. -/
structure HybridStrategy where
  semantic_weight : ℚ
  fuzzy_weight : ℚ
deriving DecidableEq

/-- `HybridSearchStrategy.__init__`: the `assert 0 <= semantic_weight <= 1`
makes construction fail outside `[0,1]`; otherwise `fuzzy_weight` is set to
`1 - semantic_weight`. -/
def hybrid_strategy_init (semantic_weight : ℚ) : Option HybridStrategy :=
  if 0 ≤ semantic_weight ∧ semantic_weight ≤ 1 then
    some ⟨semantic_weight, 1 - semantic_weight⟩
  else none

/-- The per-chunk hybrid score vector computed by `_initial_ranking`. -/
def hybrid_scores (s : HybridStrategy) (semantic_scores fuzzy_scores : List ℚ) :
    List ℚ :=
  List.zipWith (fun a b => s.semantic_weight * a + s.fuzzy_weight * b)
    (min_max_normalize semantic_scores) (min_max_normalize fuzzy_scores)

/-! ## Embedding cache (`src/schema_search/embedding_manager.py`)

`load_or_generate` answers from the on-disk cache exactly when `force` is
unset and `_is_cache_valid` holds: all three cache files exist and the saved
fingerprint `{use_llm_summary, max_tokens, embedding_model}` equals the
current one.  The sentence-transformer is the external `encode` parameter
(model name, batch size and normalization flag are what the code passes). -/

/-- The configuration fields `EmbeddingManager` reads. -/
structure SSConfig where
  use_llm_summary : Bool
  max_tokens : Nat
  overlap_tokens : Nat
  embedding_model : String
  batch_size : Nat
  normalize : Bool

/-- The fingerprint persisted in `cache_config.json`. -/
structure CacheConfig where
  use_llm_summary : Bool
  max_tokens : Nat
  embedding_model : String
deriving DecidableEq

/-- The `current_config` dictionary built inside `_is_cache_valid` (and
re-saved by `_generate_and_cache`). -/
def current_cache_config (c : SSConfig) : CacheConfig :=
  ⟨c.use_llm_summary, c.max_tokens, c.embedding_model⟩

/-- The cache directory: `embeddings.npz`, `chunk_metadata.json`,
`cache_config.json`; `none` models a missing or unreadable file. -/
structure CacheDir where
  embeddings_file : Option (List (List ℚ))
  metadata_file : Option (List Chunk)
  config_file : Option CacheConfig

/-- `EmbeddingManager._is_cache_valid`. -/
def is_cache_valid (c : SSConfig) (d : CacheDir) : Bool :=
  match d.embeddings_file, d.metadata_file, d.config_file with
  | some _, some _, some cached => cached = current_cache_config c
  | _, _, _ => false

/-- `EmbeddingManager.load_or_generate`.  Returns the embeddings, the cache
directory afterwards, and whether the call answered from the cache. -/
def load_or_generate (encode : String → Nat → Bool → Str → List ℚ)
    (c : SSConfig) (chunks : List Chunk) (force : Bool) (d : CacheDir) :
    List (List ℚ) × CacheDir × Bool :=
  if ¬ force ∧ is_cache_valid c d then
    (d.embeddings_file.getD [], d, true)
  else
    let embs := chunks.map (fun ch => encode c.embedding_model c.batch_size c.normalize ch.content)
    (embs, ⟨some embs, some chunks, some (current_cache_config c)⟩, false)

/-! ## Search orchestrator (`src/schema_search/schema_search.py`)

`SchemaSearch.search` guards on `embedding_manager.embeddings` being set
(the precondition established by `index()`), then runs initial ranking,
graph expansion and reranking.  Python `set`s have unspecified iteration
order; they are modelled as first-insertion-ordered deduplicated lists. -/

/-- One entry of the `results` list assembled by `_rerank`. -/
structure ResultItem where
  table : Str
  score : ℚ
  schema : Option TableInfo
  matched_chunks : List Str
  related_tables : List Str

/-- The `SchemaSearch` fields `search` reads. -/
structure SSState where
  embedding_weight : ℚ
  bm25_weight : ℚ
  initial_top_k : Nat
  rerank_top_k : Nat
  graph_expand_hops : Nat
  metadata_dict : List (Str × TableInfo)
  chunks : List Chunk
  embeddings : Option (List (List ℚ))
  ranker : Ranker
  graph : Graph Str

/-- `SchemaSearch._expand_graph`: union the hop-limited neighbors of every
initial table into the candidate set. -/
def expand_graph (st : SSState) (initial_tables : List Str) : List Str :=
  initial_tables.foldl
    (fun acc t => acc ++ ((get_neighbors st.graph t st.graph_expand_hops).filter
      (fun n => ¬ n ∈ acc)))
    initial_tables

/-- `SchemaSearch._rerank`: collect the expanded tables' chunks, rank them
with a fresh `Ranker` built over just that subset, aggregate to tables via
`get_top_tables_from_chunks`, and assemble result items sorted by score. -/
def schema_search_rerank (bm25Okapi : List (List Str) → List Str → List ℚ)
    (st : SSState) (query : Str) (query_embedding : List ℚ)
    (embeddings : List (List ℚ)) (expanded_tables : List Str) :
    Except String (List ResultItem) :=
  let table_chunks := (List.range st.chunks.length).foldl
    (fun acc idx =>
      let c := st.chunks.getD idx default
      if c.table_name ∈ expanded_tables then upsertIdx acc c.table_name idx else acc) []
  let rerank_chunk_indices := expanded_tables.foldl
    (fun acc t => acc ++ (List.lookup t table_chunks).getD []) []
  let rerank_embeddings := rerank_chunk_indices.map (fun i => embeddings.getD i [])
  let rerank_chunks := rerank_chunk_indices.map (fun i => st.chunks.getD i default)
  let temp_ranker : Ranker := build_bm25 bm25Okapi
    ⟨st.embedding_weight, st.bm25_weight, none, none⟩ rerank_chunks
  match temp_ranker.rank query query_embedding rerank_embeddings with
  | .error e => .error e
  | .ok reranked =>
    match get_top_tables_from_chunks temp_ranker reranked st.rerank_top_k with
    | .error e => .error e
    | .ok final_table_chunk_map =>
      let results := final_table_chunk_map.map (fun p =>
        let max_score := pyMax (p.2.map (fun idx => (reranked.getD idx default).2.1))
        { table := p.1
          score := max_score
          schema := List.lookup p.1 st.metadata_dict
          matched_chunks := p.2.map (fun idx => (rerank_chunks.getD idx default).content)
          related_tables := get_neighbors st.graph p.1 st.graph_expand_hops
          : ResultItem })
      .ok (List.insertionSort (fun a b => b.score ≤ a.score) results)

/-- `SchemaSearch.search`: the precondition guard, then
`_initial_ranking` → `_expand_graph` → `_rerank`. -/
def schema_search (bm25Okapi : List (List Str) → List Str → List ℚ)
    (encode_query : Str → List ℚ) (st : SSState) (query : Str) :
    Except String (List ResultItem) :=
  match st.embeddings with
  | none => .error "Embeddings not generated. Call index() before search()"
  | some embeddings =>
    let query_embedding := encode_query query
    match st.ranker.rank query query_embedding embeddings with
    | .error e => .error e
    | .ok ranked_chunks =>
      let top_chunk_indices := (ranked_chunks.take st.initial_top_k).map (fun t => t.1)
      let initial_tables := (top_chunk_indices.map
        (fun idx => (st.chunks.getD idx default).table_name)).dedup
      let expanded_tables := expand_graph st initial_tables
      schema_search_rerank bm25Okapi st query query_embedding embeddings expanded_tables

instance {ε α : Type} [DecidableEq ε] [DecidableEq α] : DecidableEq (Except ε α) :=
  fun x y =>
  match x, y with
  | .ok a, .ok b =>
    if h : a = b then isTrue (by rw [h]) else isFalse (fun hh => by cases hh; exact h rfl)
  | .error a, .error b =>
    if h : a = b then isTrue (by rw [h]) else isFalse (fun hh => by cases hh; exact h rfl)
  | .ok _, .error _ => isFalse (fun hh => by cases hh)
  | .error _, .ok _ => isFalse (fun hh => by cases hh)

/-! ## Text-splitting lemmas -/

theorem joinNl_cons_cons (l l' : Str) (ls : List Str) :
    joinNl (l :: l' :: ls) = l ++ '\n' :: joinNl (l' :: ls) := rfl

theorem joinNl_eq_intercalate (ls : List Str) :
    joinNl ls = List.intercalate ['\n'] ls := by
  induction ls with
  | nil => rfl
  | cons l ls ih =>
    cases ls with
    | nil => simp [joinNl, List.intercalate]
    | cons l' ls' =>
      rw [joinNl_cons_cons, ih]
      simp [List.intercalate]

theorem splitNl_joinNl (ls : List Str) (hne : ls ≠ [])
    (hnl : ∀ l ∈ ls, ('\n' : Char) ∉ l) : splitNl (joinNl ls) = ls := by
  rw [joinNl_eq_intercalate]
  exact List.splitOn_intercalate ls '\n' hnl hne

theorem countWordsAux_append_nl (l r : Str) :
    ∀ b, countWordsAux b (l ++ '\n' :: r) = countWordsAux b l + countWordsAux false r := by
  induction l with
  | nil =>
    intro b
    simp [countWordsAux, isWs]
  | cons c cs ih =>
    intro b
    by_cases hc : isWs c
    · simp [countWordsAux, hc, ih]
    · simp [countWordsAux, hc, ih, Nat.add_assoc]

theorem countWords_append_nl (l r : Str) :
    countWords (l ++ '\n' :: r) = countWords l + countWords r :=
  countWordsAux_append_nl l r false

theorem div4_add_le (a b : Nat) : a / 4 + b / 4 ≤ (a + b) / 4 := by
  rw [Nat.le_div_iff_mul_le (by norm_num)]
  calc (a / 4 + b / 4) * 4 = a / 4 * 4 + b / 4 * 4 := by ring
    _ ≤ a + b := Nat.add_le_add (Nat.div_mul_le_self a 4) (Nat.div_mul_le_self b 4)

/-- The per-line estimates, summed, never exceed the estimate of the joined
text: splitting a text into lines only loses the newline characters and the
flooring slack of the `//4` term. -/
theorem sumEst_le_estimate_joinNl (ls : List Str) (hne : ls ≠ []) :
    sumEst ls ≤ estimate_tokens (joinNl ls) := by
  induction ls with
  | nil => cases hne rfl
  | cons l ls ih =>
    cases ls with
    | nil => simp [sumEst, joinNl]
    | cons l' ls' =>
      rw [joinNl_cons_cons]
      have hsum : sumEst (l :: l' :: ls') = estimate_tokens l + sumEst (l' :: ls') := by
        simp [sumEst]
      rw [hsum]
      have hih := ih (by simp)
      have hwords : countWords (l ++ '\n' :: joinNl (l' :: ls')) =
          countWords l + countWords (joinNl (l' :: ls')) := countWords_append_nl _ _
      have hlen : (l ++ '\n' :: joinNl (l' :: ls')).length =
          l.length + (1 + (joinNl (l' :: ls')).length) := by simp; omega
      unfold estimate_tokens at *
      rw [hwords, hlen]
      have hdiv : l.length / 4 + (joinNl (l' :: ls')).length / 4 ≤
          (l.length + (1 + (joinNl (l' :: ls')).length)) / 4 := by
        calc l.length / 4 + (joinNl (l' :: ls')).length / 4
            ≤ (l.length + (joinNl (l' :: ls')).length) / 4 := div4_add_le _ _
          _ ≤ (l.length + (1 + (joinNl (l' :: ls')).length)) / 4 :=
              Nat.div_le_div_right (by omega)
      omega

/-! ## Chunking-loop lemmas -/

theorem sumEst_cons (l : Str) (ls : List Str) :
    sumEst (l :: ls) = estimate_tokens l + sumEst ls := by simp [sumEst]

theorem sumEst_append (l r : List Str) : sumEst (l ++ r) = sumEst l + sumEst r := by
  simp [sumEst]

/-- If everything still to be placed fits inside the budget, the loop closes a
single chunk holding the whole accumulator and every remaining line. -/
theorem chunk_table_aux_no_split (tname header : Str) (maxTokens : Nat) :
    ∀ (ls cur : List Str) (curTokens cid : Nat),
    curTokens + sumEst ls ≤ maxTokens → 2 ≤ cur.length →
    chunk_table_aux tname header maxTokens ls cur curTokens cid =
      [⟨tname, joinNl (cur ++ ls), cid, curTokens + sumEst ls⟩] := by
  intro ls
  induction ls with
  | nil =>
    intro cur curTokens cid hle hlen
    simp only [chunk_table_aux, sumEst, List.map_nil, List.sum_nil, Nat.add_zero,
      List.append_nil]
    rw [if_pos (by omega)]
  | cons l ls ih =>
    intro cur curTokens cid hle hlen
    rw [sumEst_cons] at hle
    have hcond : ¬ (maxTokens < curTokens + estimate_tokens l ∧ 1 < cur.length) := by
      intro h
      omega
    simp only [chunk_table_aux]
    rw [if_neg hcond]
    rw [ih (cur ++ [l]) (curTokens + estimate_tokens l) cid (by omega) (by simp; omega)]
    simp only [sumEst_cons, List.append_assoc, List.cons_append, List.nil_append,
      Chunk.mk.injEq, true_and]
    have harith : curTokens + estimate_tokens l + sumEst ls =
        curTokens + (estimate_tokens l + sumEst ls) := by omega
    rw [harith]

/-- Everything the loop ever emits: the content is the header followed by at
least one line, the token count is the sum of the per-line estimates of its
lines, newline-freedom is inherited, and a chunk holding two or more content
lines stayed within the budget (its last line was admitted by the
overflow check). -/
theorem chunk_table_aux_shape (tname header : Str) (maxTokens : Nat) :
    ∀ (ls cur : List Str) (curTokens cid : Nat),
    (∀ x ∈ ls, ('\n' : Char) ∉ x) →
    (∃ rest, cur = header :: rest ∧ (∀ x ∈ rest, ('\n' : Char) ∉ x)) →
    curTokens = sumEst cur →
    (3 ≤ cur.length → curTokens ≤ maxTokens) →
    ∀ c ∈ chunk_table_aux tname header maxTokens ls cur curTokens cid,
      ∃ rest, rest ≠ [] ∧ (∀ x ∈ rest, ('\n' : Char) ∉ x) ∧
        c.content = joinNl (header :: rest) ∧
        c.token_count = sumEst (header :: rest) ∧
        (2 ≤ rest.length → c.token_count ≤ maxTokens) := by
  intro ls
  induction ls with
  | nil =>
    intro cur curTokens cid _hlsnl hcur htok hbound c hc
    obtain ⟨rest, rfl, hrestnl⟩ := hcur
    simp only [chunk_table_aux] at hc
    by_cases hlen : 1 < (header :: rest).length
    · rw [if_pos hlen] at hc
      simp only [List.mem_singleton] at hc
      subst hc
      refine ⟨rest, ?_, hrestnl, rfl, htok, ?_⟩
      · intro h; subst h; simp at hlen
      · intro h2
        exact htok ▸ hbound (by simp at h2 ⊢; omega)
    · rw [if_neg hlen] at hc
      simp at hc
  | cons l ls ih =>
    intro cur curTokens cid hlsnl hcur htok hbound c hc
    obtain ⟨rest, rfl, hrestnl⟩ := hcur
    simp only [chunk_table_aux] at hc
    by_cases hcond : maxTokens < curTokens + estimate_tokens l ∧ 1 < (header :: rest).length
    · rw [if_pos hcond] at hc
      rcases List.mem_cons.mp hc with hc | hc
      · subst hc
        refine ⟨rest, ?_, hrestnl, rfl, htok, ?_⟩
        · intro h; subst h; simp at hcond
        · intro h2
          exact htok ▸ hbound (by simp at h2 ⊢; omega)
      · refine ih [header, l] (estimate_tokens header + estimate_tokens l) (cid + 1)
          (fun x hx => hlsnl x (List.mem_cons_of_mem l hx))
          ⟨[l], rfl, fun x hx => hlsnl x (by simp at hx; simp [hx])⟩
          (by simp [sumEst]) (by simp) c hc
    · rw [if_neg hcond] at hc
      have hrest1 : ∀ x ∈ rest ++ [l], ('\n' : Char) ∉ x := by
        intro x hx
        rcases List.mem_append.mp hx with hx | hx
        · exact hrestnl x hx
        · exact hlsnl x (by simp at hx; simp [hx])
      refine ih ((header :: rest) ++ [l]) (curTokens + estimate_tokens l) cid
        (fun x hx => hlsnl x (List.mem_cons_of_mem l hx))
        ⟨rest ++ [l], by simp, hrest1⟩
        (by rw [htok]; simp [sumEst, Nat.add_assoc])
        ?_ c hc
      intro h3
      by_cases hr : rest = []
      · rw [hr] at h3
        simp at h3
      · have hlen2 : 1 < (header :: rest).length := by
          cases rest with
          | nil => cases hr rfl
          | cons a as => simp
        have hA : ¬ maxTokens < curTokens + estimate_tokens l :=
          fun hA => hcond ⟨hA, hlen2⟩
        omega

/-- The loop emits at least one chunk whenever the accumulator already holds
a content line. -/
theorem chunk_table_aux_length_pos (tname header : Str) (maxTokens : Nat) :
    ∀ (ls cur : List Str) (curTokens cid : Nat), 2 ≤ cur.length →
    1 ≤ (chunk_table_aux tname header maxTokens ls cur curTokens cid).length := by
  intro ls
  induction ls with
  | nil =>
    intro cur curTokens cid hlen
    simp only [chunk_table_aux]
    rw [if_pos (by omega)]
    simp
  | cons l ls ih =>
    intro cur curTokens cid hlen
    simp only [chunk_table_aux]
    by_cases hcond : maxTokens < curTokens + estimate_tokens l ∧ 1 < cur.length
    · rw [if_pos hcond]
      simp
    · rw [if_neg hcond]
      exact ih (cur ++ [l]) (curTokens + estimate_tokens l) cid (by simp; omega)

/-- If the accumulator already holds a content line and the remaining lines
push past the budget, the loop emits at least two chunks. -/
theorem chunk_table_aux_ge_two (tname header : Str) (maxTokens : Nat) :
    ∀ (ls cur : List Str) (curTokens cid : Nat), ls ≠ [] → 2 ≤ cur.length →
    maxTokens < curTokens + sumEst ls →
    2 ≤ (chunk_table_aux tname header maxTokens ls cur curTokens cid).length := by
  intro ls
  induction ls with
  | nil => intro _ _ _ h; cases h rfl
  | cons l ls ih =>
    intro cur curTokens cid _ hlen hover
    rw [sumEst_cons] at hover
    simp only [chunk_table_aux]
    by_cases hcond : maxTokens < curTokens + estimate_tokens l ∧ 1 < cur.length
    · rw [if_pos hcond]
      have := chunk_table_aux_length_pos tname header maxTokens ls [header, l]
        (estimate_tokens header + estimate_tokens l) (cid + 1) (by simp)
      simp only [List.length_cons]
      omega
    · rw [if_neg hcond]
      have hA : ¬ maxTokens < curTokens + estimate_tokens l :=
        fun hA => hcond ⟨hA, by omega⟩
      cases ls with
      | nil =>
        exfalso
        simp [sumEst] at hover
        omega
      | cons l' ls' =>
        exact ih (cur ++ [l]) (curTokens + estimate_tokens l) cid (by simp)
          (by simp; omega) (by omega)

theorem chunk_table_aux_cons (tname header : Str) (maxTokens : Nat) (l : Str)
    (ls cur : List Str) (curTokens cid : Nat) :
    chunk_table_aux tname header maxTokens (l :: ls) cur curTokens cid =
      if maxTokens < curTokens + estimate_tokens l ∧ 1 < cur.length then
        ⟨tname, joinNl cur, cid, curTokens⟩ ::
          chunk_table_aux tname header maxTokens ls [header, l]
            (estimate_tokens header + estimate_tokens l) (cid + 1)
      else
        chunk_table_aux tname header maxTokens ls (cur ++ [l])
          (curTokens + estimate_tokens l) cid := rfl

/-- Unfolding `chunk_table` to its loop. -/
theorem chunk_table_eq_aux (table_name : Str) (info : TableInfo) (maxTokens startId : Nat) :
    chunk_table table_name info maxTokens startId =
      chunk_table_aux table_name ("Table: ".data ++ table_name) maxTokens
        ((splitNl (to_markdown table_name info)).drop 1)
        ["Table: ".data ++ table_name]
        (estimate_tokens ("Table: ".data ++ table_name)) startId := rfl

theorem to_markdown_lines_cons (table_name : Str) (info : TableInfo) :
    to_markdown_lines table_name info =
      ("Table: ".data ++ table_name) :: (to_markdown_lines table_name info).tail := rfl

/-- Amended claim C3, general form: a table rendering at least one line
beyond the header, whose rendered content fits the token budget, yields
exactly one chunk carrying the entire rendered content. -/
theorem chunk_table_single_of_fits (table_name : Str) (info : TableInfo)
    (maxTokens startId : Nat)
    (hnl : ∀ l ∈ to_markdown_lines table_name info, ('\n' : Char) ∉ l)
    (hlen : 2 ≤ (to_markdown_lines table_name info).length)
    (hfit : estimate_tokens (to_markdown table_name info) ≤ maxTokens) :
    chunk_table table_name info maxTokens startId =
      [⟨table_name, to_markdown table_name info, startId,
        sumEst (to_markdown_lines table_name info)⟩] := by
  have hmd : splitNl (to_markdown table_name info) = to_markdown_lines table_name info :=
    splitNl_joinNl _ (by rw [to_markdown_lines_cons]; simp) hnl
  rw [chunk_table_eq_aux, hmd]
  cases htail : (to_markdown_lines table_name info).tail with
  | nil =>
    exfalso
    rw [to_markdown_lines_cons table_name info, htail] at hlen
    simp at hlen
  | cons r rest =>
    have hdrop : (to_markdown_lines table_name info).drop 1 = r :: rest := by
      rw [to_markdown_lines_cons table_name info, htail]
      rfl
    rw [hdrop]
    have hsum : sumEst (to_markdown_lines table_name info) =
        estimate_tokens ("Table: ".data ++ table_name) +
          (estimate_tokens r + sumEst rest) := by
      rw [to_markdown_lines_cons table_name info, htail, sumEst_cons, sumEst_cons]
    have hbound : sumEst (to_markdown_lines table_name info) ≤ maxTokens :=
      le_trans (sumEst_le_estimate_joinNl _ (by rw [to_markdown_lines_cons]; simp)) hfit
    rw [chunk_table_aux_cons, if_neg (by simp), List.singleton_append]
    rw [chunk_table_aux_no_split table_name ("Table: ".data ++ table_name) maxTokens rest
      ["Table: ".data ++ table_name, r]
      (estimate_tokens ("Table: ".data ++ table_name) + estimate_tokens r) startId
      (by omega) (by simp)]
    have hcontent : joinNl (["Table: ".data ++ table_name, r] ++ rest) =
        to_markdown table_name info := by
      unfold to_markdown
      rw [to_markdown_lines_cons table_name info, htail]
      rfl
    rw [hcontent]
    have htoken : estimate_tokens ("Table: ".data ++ table_name) + estimate_tokens r +
        sumEst rest = sumEst (to_markdown_lines table_name info) := by omega
    rw [htoken]

/-- Amended claim C4, general form: with at least two content lines and a
per-line token total past the budget, the loop splits into at least two
chunks; every chunk starts with the identity header; and every chunk
holding two or more content lines respects the budget. -/
theorem chunk_table_overflow_bounds (table_name : Str) (info : TableInfo)
    (maxTokens startId : Nat)
    (hnl : ∀ l ∈ to_markdown_lines table_name info, ('\n' : Char) ∉ l)
    (hlen : 3 ≤ (to_markdown_lines table_name info).length)
    (hover : maxTokens < sumEst (to_markdown_lines table_name info)) :
    2 ≤ (chunk_table table_name info maxTokens startId).length ∧
    (∀ c ∈ chunk_table table_name info maxTokens startId,
      ("Table: ".data ++ table_name) <+: c.content) ∧
    (∀ c ∈ chunk_table table_name info maxTokens startId,
      3 ≤ (splitNl c.content).length → c.token_count ≤ maxTokens) := by
  have hmd : splitNl (to_markdown table_name info) = to_markdown_lines table_name info :=
    splitNl_joinNl _ (by rw [to_markdown_lines_cons]; simp) hnl
  have hheadnl : ('\n' : Char) ∉ ("Table: ".data ++ table_name) :=
    hnl _ (by rw [to_markdown_lines_cons]; exact List.mem_cons_self _ _)
  have htailnl : ∀ x ∈ (to_markdown_lines table_name info).tail, ('\n' : Char) ∉ x := by
    intro x hx
    exact hnl x (List.mem_of_mem_tail hx)
  constructor
  · -- at least two chunks
    rw [chunk_table_eq_aux, hmd]
    cases htail : (to_markdown_lines table_name info).tail with
    | nil =>
      exfalso
      rw [to_markdown_lines_cons table_name info, htail] at hlen
      simp at hlen
    | cons r1 tl =>
      cases tl with
      | nil =>
        exfalso
        rw [to_markdown_lines_cons table_name info, htail] at hlen
        simp at hlen
      | cons r2 rest =>
        have hdrop : (to_markdown_lines table_name info).drop 1 = r1 :: r2 :: rest := by
          rw [to_markdown_lines_cons table_name info, htail]
          rfl
        rw [hdrop, chunk_table_aux_cons, if_neg (by simp), List.singleton_append]
        refine chunk_table_aux_ge_two table_name ("Table: ".data ++ table_name) maxTokens
          (r2 :: rest) ["Table: ".data ++ table_name, r1]
          (estimate_tokens ("Table: ".data ++ table_name) + estimate_tokens r1) startId
          (by simp) (by simp) ?_
        have hsum : sumEst (to_markdown_lines table_name info) =
            estimate_tokens ("Table: ".data ++ table_name) +
              (estimate_tokens r1 + sumEst (r2 :: rest)) := by
          rw [to_markdown_lines_cons table_name info, htail, sumEst_cons, sumEst_cons]
        omega
  · have hshape := chunk_table_aux_shape table_name ("Table: ".data ++ table_name)
      maxTokens ((splitNl (to_markdown table_name info)).drop 1)
      ["Table: ".data ++ table_name] (estimate_tokens ("Table: ".data ++ table_name))
      startId
      (by
        rw [hmd]
        intro x hx
        exact htailnl x (by rw [to_markdown_lines_cons table_name info] at hx; exact hx))
      ⟨[], rfl, by simp⟩ (by simp [sumEst]) (by simp)
    constructor
    · intro c hc
      obtain ⟨rest, hrne, _hrnl, hcontent, _, _⟩ :=
        hshape c (by rw [chunk_table_eq_aux] at hc; exact hc)
      rw [hcontent]
      cases rest with
      | nil => cases hrne rfl
      | cons y ys =>
        rw [joinNl_cons_cons]
        exact ⟨'\n' :: joinNl (y :: ys), rfl⟩
    · intro c hc h3
      obtain ⟨rest, hrne, hrnl, hcontent, htok, hbound⟩ :=
        hshape c (by rw [chunk_table_eq_aux] at hc; exact hc)
      have hsplit : splitNl c.content = ("Table: ".data ++ table_name) :: rest := by
        rw [hcontent]
        refine splitNl_joinNl _ (by simp) ?_
        intro x hx
        rcases List.mem_cons.mp hx with hx | hx
        · exact hx ▸ hheadnl
        · exact hrnl x hx
      rw [hsplit] at h3
      simp only [List.length_cons] at h3
      exact hbound (by omega)

/-! ## Decimal representation lemmas (for the `schema.table.N` chunk ids) -/

theorem dig10_lt (n : Nat) (h : n < 10) : dig10 n = [Nat.digitChar n] := by
  unfold dig10
  rw [dif_pos h]

theorem dig10_ge (n : Nat) (h : ¬ n < 10) :
    dig10 n = dig10 (n / 10) ++ [Nat.digitChar (n % 10)] := by
  conv_lhs => unfold dig10
  rw [dif_neg h]

theorem dig10_ne_nil (n : Nat) : dig10 n ≠ [] := by
  by_cases h : n < 10
  · rw [dig10_lt n h]; simp
  · rw [dig10_ge n h]; simp

theorem toDigitsCore_eq_dig10 :
    ∀ (f n : Nat) (ds : Str), n < f → Nat.toDigitsCore 10 f n ds = dig10 n ++ ds := by
  intro f
  induction f with
  | zero => intro n ds h; omega
  | succ f ih =>
    intro n ds h
    simp only [Nat.toDigitsCore]
    by_cases hdiv : n / 10 = 0
    · rw [if_pos hdiv]
      have hn : n < 10 := by omega
      rw [dig10_lt n hn, Nat.mod_eq_of_lt hn]
      rfl
    · rw [if_neg hdiv]
      have hn : ¬ n < 10 := by omega
      have hlt : n / 10 < f := by
        have := Nat.div_lt_self (by omega : 0 < n) (by omega : 1 < 10)
        omega
      rw [ih (n / 10) (Nat.digitChar (n % 10) :: ds) hlt, dig10_ge n hn]
      simp

theorem toDigits_eq_dig10 (n : Nat) : Nat.toDigits 10 n = dig10 n := by
  unfold Nat.toDigits
  rw [toDigitsCore_eq_dig10 (n + 1) n [] (by omega)]
  simp

theorem digitChar_inj_fin : ∀ a b : Fin 10, Nat.digitChar a.val = Nat.digitChar b.val → a = b := by
  decide

theorem digitChar_inj (a b : Nat) (ha : a < 10) (hb : b < 10)
    (h : Nat.digitChar a = Nat.digitChar b) : a = b := by
  have := digitChar_inj_fin ⟨a, ha⟩ ⟨b, hb⟩ h
  simpa using congrArg Fin.val this

theorem dig10_injective : ∀ a b : Nat, dig10 a = dig10 b → a = b := by
  intro a
  induction a using Nat.strong_induction_on with
  | _ a ih =>
    intro b h
    by_cases ha : a < 10 <;> by_cases hb : b < 10
    · rw [dig10_lt a ha, dig10_lt b hb] at h
      simp only [List.cons.injEq, and_true] at h
      exact digitChar_inj a b ha hb h
    · exfalso
      rw [dig10_lt a ha, dig10_ge b hb] at h
      cases hb10 : dig10 (b / 10) with
      | nil => exact dig10_ne_nil _ hb10
      | cons x xs =>
        rw [hb10] at h
        simp at h
    · exfalso
      rw [dig10_ge a ha, dig10_lt b hb] at h
      cases ha10 : dig10 (a / 10) with
      | nil => exact dig10_ne_nil _ ha10
      | cons x xs =>
        rw [ha10] at h
        simp at h
    · rw [dig10_ge a ha, dig10_ge b hb] at h
      obtain ⟨h1, h2⟩ := List.append_inj' h (by simp)
      have hdiv : a / 10 = b / 10 := ih (a / 10)
        (Nat.div_lt_self (by omega) (by omega)) (b / 10) h1
      have hmod : a % 10 = b % 10 := by
        have hc : Nat.digitChar (a % 10) = Nat.digitChar (b % 10) := by
          simpa using h2
        exact digitChar_inj _ _ (Nat.mod_lt a (by omega)) (Nat.mod_lt b (by omega)) hc
      omega

theorem toDigits_injective (a b : Nat) (h : Nat.toDigits 10 a = Nat.toDigits 10 b) :
    a = b := by
  rw [toDigits_eq_dig10, toDigits_eq_dig10] at h
  exact dig10_injective a b h

theorem mk_chunk_id_inj (schema_name table_name : Str) (i j : Nat)
    (h : mk_chunk_id schema_name table_name i = mk_chunk_id schema_name table_name j) :
    i = j := by
  unfold mk_chunk_id at h
  have h1 := List.append_cancel_left h
  have h4 := ((List.cons.injEq _ _ _ _).mp h1).2
  exact toDigits_injective i j h4

/-- Chunk ids emitted by the base-chunker loop continue the sequence from
`cidx`: the `i`-th emitted chunk gets id `schema.table.(cidx + i)`. -/
theorem base_chunk_table_aux_ids (schema_name table_name header : Str) (maxTokens : Nat) :
    ∀ (ls cur : List Str) (curTokens cidx i : Nat),
      i < (base_chunk_table_aux schema_name table_name header maxTokens
        ls cur curTokens cidx).length →
      ((base_chunk_table_aux schema_name table_name header maxTokens
        ls cur curTokens cidx).getD i default).chunk_id =
        mk_chunk_id schema_name table_name (cidx + i) := by
  intro ls
  induction ls with
  | nil =>
    intro cur curTokens cidx i hi
    simp only [base_chunk_table_aux] at hi ⊢
    by_cases hlen : 1 < cur.length
    · rw [if_pos hlen] at hi ⊢
      simp only [List.length_singleton] at hi
      obtain rfl : i = 0 := by omega
      simp
    · rw [if_neg hlen] at hi
      simp at hi
  | cons l ls ih =>
    intro cur curTokens cidx i hi
    simp only [base_chunk_table_aux] at hi ⊢
    by_cases hcond : maxTokens < curTokens + estimate_tokens l ∧ 1 < cur.length
    · rw [if_pos hcond] at hi ⊢
      cases i with
      | zero => simp
      | succ i =>
        simp only [List.getD_cons_succ]
        rw [ih [header, l] (estimate_tokens header + estimate_tokens l) (cidx + 1) i
          (by simpa using hi)]
        congr 1
        omega
    · rw [if_neg hcond] at hi ⊢
      exact ih (cur ++ [l]) (curTokens + estimate_tokens l) cidx i hi

theorem base_chunk_table_eq_aux (schema_name table_name content : Str) (maxTokens : Nat) :
    base_chunk_table schema_name table_name content maxTokens =
      base_chunk_table_aux schema_name table_name
        ("Schema: ".data ++ schema_name ++ '\n' :: ("Table: ".data ++ table_name))
        maxTokens ((splitNl content).drop 1)
        ["Schema: ".data ++ schema_name ++ '\n' :: ("Table: ".data ++ table_name)]
        (estimate_tokens
          ("Schema: ".data ++ schema_name ++ '\n' :: ("Table: ".data ++ table_name))) 0 := rfl

/-- C5: chunk ids are assigned sequentially per table as `schema.table.N` with
`N = 0, 1, 2, ...`, hence pairwise distinct within the table. -/
theorem base_chunk_table_sequential_ids (schema_name table_name content : Str)
    (maxTokens : Nat) :
    (∀ i, i < (base_chunk_table schema_name table_name content maxTokens).length →
      ((base_chunk_table schema_name table_name content maxTokens).getD i default).chunk_id =
        mk_chunk_id schema_name table_name i) ∧
    (∀ i j, i < (base_chunk_table schema_name table_name content maxTokens).length →
      j < (base_chunk_table schema_name table_name content maxTokens).length → i ≠ j →
      ((base_chunk_table schema_name table_name content maxTokens).getD i default).chunk_id ≠
      ((base_chunk_table schema_name table_name content maxTokens).getD j default).chunk_id) := by
  have hids : ∀ i, i < (base_chunk_table schema_name table_name content maxTokens).length →
      ((base_chunk_table schema_name table_name content maxTokens).getD i default).chunk_id =
        mk_chunk_id schema_name table_name i := by
    intro i hi
    rw [base_chunk_table_eq_aux] at hi ⊢
    have := base_chunk_table_aux_ids schema_name table_name
      ("Schema: ".data ++ schema_name ++ '\n' :: ("Table: ".data ++ table_name)) maxTokens
      ((splitNl content).drop 1)
      ["Schema: ".data ++ schema_name ++ '\n' :: ("Table: ".data ++ table_name)]
      (estimate_tokens
        ("Schema: ".data ++ schema_name ++ '\n' :: ("Table: ".data ++ table_name))) 0 i hi
    simpa using this
  refine ⟨hids, fun i j hi hj hne heq => hne ?_⟩
  rw [hids i hi, hids j hj] at heq
  exact mk_chunk_id_inj schema_name table_name i j heq

/-! ## Graph lemmas -/

theorem mem_succSet {α : Type} [DecidableEq α] (g : Graph α) (a b : α) :
    b ∈ succSet g a ↔ (a, b) ∈ g.edges := by
  unfold succSet
  rw [List.mem_dedup, List.mem_map]
  constructor
  · rintro ⟨e, he, rfl⟩
    have := (List.mem_filter.mp he)
    have h1 : e.1 = a := by simpa using this.2
    exact h1 ▸ this.1
  · intro h
    exact ⟨(a, b), List.mem_filter.mpr ⟨h, by simp⟩, rfl⟩

theorem mem_predSet {α : Type} [DecidableEq α] (g : Graph α) (a b : α) :
    b ∈ predSet g a ↔ (b, a) ∈ g.edges := by
  unfold predSet
  rw [List.mem_dedup, List.mem_map]
  constructor
  · rintro ⟨e, he, rfl⟩
    have := (List.mem_filter.mp he)
    have h1 : e.2 = a := by simpa using this.2
    exact h1 ▸ this.1
  · intro h
    exact ⟨(b, a), List.mem_filter.mpr ⟨h, by simp⟩, rfl⟩

theorem mem_ball_succ {α : Type} [DecidableEq α] (step : α → List α) (n : Nat) (s x : α) :
    x ∈ ball step (n + 1) s ↔
      x ∈ ball step n s ∨ ∃ v ∈ ball step n s, x ∈ step v := by
  simp [ball, List.mem_dedup, List.mem_append, List.mem_flatMap]

theorem ball_subset_succ {α : Type} [DecidableEq α] (step : α → List α) (n : Nat) (s : α) :
    ∀ x ∈ ball step n s, x ∈ ball step (n + 1) s := by
  intro x hx
  exact (mem_ball_succ step n s x).mpr (Or.inl hx)

theorem ball_mono {α : Type} [DecidableEq α] (step : α → List α) (s : α) :
    ∀ {n m : Nat}, n ≤ m → ∀ x ∈ ball step n s, x ∈ ball step m s := by
  intro n m h
  induction m with
  | zero =>
    obtain rfl : n = 0 := by omega
    exact fun x hx => hx
  | succ m ih =>
    rcases Nat.lt_or_ge n (m + 1) with hlt | hge
    · intro x hx
      exact ball_subset_succ step m s x (ih (by omega) x hx)
    · obtain rfl : n = m + 1 := by omega
      exact fun x hx => hx

theorem mem_ball_iff_chainN {α : Type} [DecidableEq α] (step : α → List α) :
    ∀ (h : Nat) (s x : α),
      x ∈ ball step h s ↔ ∃ k, k ≤ h ∧ chainN (fun a b => b ∈ step a) k s x := by
  intro h
  induction h with
  | zero =>
    intro s x
    simp only [ball, List.mem_singleton]
    constructor
    · rintro rfl
      exact ⟨0, le_refl 0, rfl⟩
    · rintro ⟨k, hk, hc⟩
      obtain rfl : k = 0 := by omega
      exact hc
  | succ h ih =>
    intro s x
    rw [mem_ball_succ]
    constructor
    · rintro (hx | ⟨v, hv, hstep⟩)
      · obtain ⟨k, hk, hc⟩ := (ih s x).mp hx
        exact ⟨k, by omega, hc⟩
      · obtain ⟨k, hk, hc⟩ := (ih s v).mp hv
        exact ⟨k + 1, by omega, ⟨v, hc, hstep⟩⟩
    · rintro ⟨k, hk, hc⟩
      rcases Nat.lt_or_ge k (h + 1) with hlt | hge
      · exact Or.inl ((ih s x).mpr ⟨k, by omega, hc⟩)
      · obtain rfl : k = h + 1 := by omega
        obtain ⟨v, hcv, hstep⟩ := hc
        exact Or.inr ⟨v, (ih s v).mpr ⟨h, le_refl h, hcv⟩, hstep⟩

theorem chainN_congr {α : Type} (E F : α → α → Prop) (hEF : ∀ a b, E a b ↔ F a b) :
    ∀ (k : Nat) (a b : α), chainN E k a b ↔ chainN F k a b := by
  intro k
  induction k with
  | zero => intro a b; rfl
  | succ k ih =>
    intro a b
    constructor
    · rintro ⟨v, hc, he⟩
      exact ⟨v, (ih a v).mp hc, (hEF v b).mp he⟩
    · rintro ⟨v, hc, he⟩
      exact ⟨v, (ih a v).mpr hc, (hEF v b).mpr he⟩

/-- C2 (amended): membership in `get_neighbors g t hops` holds exactly for
tables distinct from `t` that are reachable within `hops` traversals all
taken forwards, or within `hops` traversals all taken backwards — the union
of the two one-directional reachability sets, not mixed-direction
reachability — provided `t` is a node of the graph. -/
theorem get_neighbors_mem_iff {α : Type} [DecidableEq α]
    (g : Graph α) (t : α) (hops : Nat) (u : α) :
    u ∈ get_neighbors g t hops ↔
      (t ∈ g.nodes ∧ u ≠ t ∧ ∃ k, k ≤ hops ∧
        (chainN (fun a b => (a, b) ∈ g.edges) k t u ∨
         chainN (fun a b => (b, a) ∈ g.edges) k t u)) := by
  unfold get_neighbors
  by_cases ht : t ∈ g.nodes
  · rw [if_pos ht]
    rw [List.Nodup.mem_erase_iff (List.nodup_dedup _)]
    rw [List.mem_dedup, List.mem_append]
    rw [mem_ball_iff_chainN, mem_ball_iff_chainN]
    constructor
    · rintro ⟨hne, ⟨k, hk, hc⟩ | ⟨k, hk, hc⟩⟩
      · refine ⟨ht, hne, k, hk, Or.inl ?_⟩
        exact (chainN_congr _ _ (fun a b => mem_succSet g a b) k t u).mp hc
      · refine ⟨ht, hne, k, hk, Or.inr ?_⟩
        exact (chainN_congr _ _ (fun a b => mem_predSet g a b) k t u).mp hc
    · rintro ⟨_, hne, k, hk, hc | hc⟩
      · exact ⟨hne, Or.inl ⟨k, hk,
          (chainN_congr _ _ (fun a b => mem_succSet g a b) k t u).mpr hc⟩⟩
      · exact ⟨hne, Or.inr ⟨k, hk,
          (chainN_congr _ _ (fun a b => mem_predSet g a b) k t u).mpr hc⟩⟩
  · rw [if_neg ht]
    simp [ht]

/-- C2, counterexample to the claim as stated: in the graph with edges
`a → c` and `b → c`, the table `b` is reachable from `a` in two
mixed-direction traversals (`a → c`, then `c ← b`), so the claimed
mixed-direction reading puts `b` in `get_neighbors(a, 2)`; the code does
not. -/
theorem get_neighbors_not_mixed :
    "b" ∈ spec_neighbors_mixed
      (⟨["a", "b", "c"], [("a", "c"), ("b", "c")]⟩ : Graph String) "a" 2 ∧
    "b" ∉ get_neighbors
      (⟨["a", "b", "c"], [("a", "c"), ("b", "c")]⟩ : Graph String) "a" 2 := by
  decide

/-- C7: `get_neighbors` returns the empty set at `hops = 0`, is monotone in
the hop count, and returns the empty set (rather than failing) for a table
absent from the graph. -/
theorem get_neighbors_algebra {α : Type} [DecidableEq α] :
    (∀ (g : Graph α) (t : α), get_neighbors g t 0 = []) ∧
    (∀ (g : Graph α) (t : α) (h1 h2 : Nat), h1 ≤ h2 →
      ∀ u ∈ get_neighbors g t h1, u ∈ get_neighbors g t h2) ∧
    (∀ (g : Graph α) (t : α) (hops : Nat), t ∉ g.nodes → get_neighbors g t hops = []) := by
  refine ⟨?_, ?_, ?_⟩
  · intro g t
    unfold get_neighbors
    by_cases ht : t ∈ g.nodes
    · rw [if_pos ht]
      simp [ball, List.dedup_cons_of_mem, List.mem_singleton]
    · rw [if_neg ht]
  · intro g t h1 h2 hle u hu
    unfold get_neighbors at hu ⊢
    by_cases ht : t ∈ g.nodes
    · rw [if_pos ht] at hu ⊢
      rw [List.Nodup.mem_erase_iff (List.nodup_dedup _)] at hu ⊢
      obtain ⟨hne, hu⟩ := hu
      rw [List.mem_dedup, List.mem_append] at hu ⊢
      refine ⟨hne, ?_⟩
      rcases hu with hu | hu
      · exact Or.inl (ball_mono _ _ hle u hu)
      · exact Or.inr (ball_mono _ _ hle u hu)
    · rw [if_neg ht] at hu
      cases hu
  · intro g t hops ht
    unfold get_neighbors
    rw [if_neg ht]

/-! ## Ranker lemmas -/

theorem argsortDesc_perm (scores : List ℚ) :
    (argsortDesc scores).Perm (List.range scores.length) := by
  unfold argsortDesc
  exact (List.reverse_perm _).trans (List.perm_insertionSort _ _)

theorem argsortDesc_sorted (scores : List ℚ) :
    (argsortDesc scores).Pairwise (fun i j => scores.getD j 0 ≤ scores.getD i 0) := by
  unfold argsortDesc
  rw [List.pairwise_reverse]
  haveI : IsTotal Nat (fun i j => scores.getD i 0 ≤ scores.getD j 0) :=
    ⟨fun a b => le_total _ _⟩
  haveI : IsTrans Nat (fun i j => scores.getD i 0 ≤ scores.getD j 0) :=
    ⟨fun a b c => le_trans⟩
  exact List.sorted_insertionSort _ (List.range scores.length)

/-- C10: over a non-empty corpus with aligned score vectors, `Ranker.rank`
succeeds and returns one tuple per chunk — the chunk indices are a
permutation of `0..n-1` — ordered by non-increasing combined score: the
whole corpus is ranked, nothing is truncated. -/
theorem rank_full_permutation (r : Ranker) (get_scores : List Str → List ℚ)
    (query : Str) (query_embedding : List ℚ) (embeddings : List (List ℚ)) (n : Nat)
    (hb : r.bm25 = some get_scores)
    (hn : embeddings.length = n) (hpos : 0 < n)
    (hlen : (get_scores (pySplit (pyLower query))).length = n) :
    ∃ out, r.rank query query_embedding embeddings = .ok out ∧
      out.length = n ∧
      (out.map (fun t => t.1)).Perm (List.range n) ∧
      out.Pairwise (fun a b => b.2.1 ≤ a.2.1) := by
  unfold Ranker.rank
  rw [hb]
  simp only
  set embedding_scores := embeddings.map (fun e => dot e query_embedding) with hemb
  set bm25_scores := get_scores (pySplit (pyLower query)) with hbm
  set bm25_scores_norm :=
    bm25_scores.map (fun s => s / (pyMax bm25_scores + 1 / 100000000)) with hbmn
  set combined_scores := List.zipWith
    (fun e b => r.embedding_weight * e + r.bm25_weight * b)
    embedding_scores bm25_scores_norm with hcomb
  have hclen : combined_scores.length = n := by
    rw [hcomb]
    simp [hemb, hbmn, hbm, hn, hlen]
  refine ⟨_, rfl, ?_, ?_, ?_⟩
  · rw [List.length_map]
    have := (argsortDesc_perm combined_scores).length_eq
    simp [this, hclen]
  · have hmap : (((argsortDesc combined_scores).map
        (fun i => (i, combined_scores.getD i 0, embedding_scores.getD i 0,
          bm25_scores_norm.getD i 0))).map (fun t => t.1)) =
        argsortDesc combined_scores := by
      rw [List.map_map]
      exact List.map_id _
    rw [hmap, ← hclen]
    exact argsortDesc_perm combined_scores
  · refine (argsortDesc_sorted combined_scores).map _ ?_
    intro a b hab
    exact hab

/-- C1, failing input: two chunks, chunk 0 of table `A` (combined score 1)
and chunk 1 of table `B` (combined score 9); the ranked list is
`[(1, 9, ...), (0, 1, ...)]` and `top_k = 1`.  The specified aggregation
(each table scored by the maximum combined score among its chunks) selects
`B`; `get_top_tables_from_chunks` selects `A`, because it reads
`ranked_chunks[idx][1]` with `idx` a **chunk index**, i.e. it takes the
score found at list *position* `idx` of the ranked list instead of the
score *of chunk* `idx`. -/
theorem get_top_tables_positional_lookup :
    get_top_tables_from_chunks
      ⟨1, 1, none, some [⟨"A".data, [], 0, 0⟩, ⟨"B".data, [], 1, 0⟩]⟩
      [(1, (9 : ℚ), 0, 0), (0, (1 : ℚ), 0, 0)] 1 =
      .ok [("A".data, [0])] ∧
    spec_top_tables [⟨"A".data, [], 0, 0⟩, ⟨"B".data, [], 1, 0⟩]
      [(1, (9 : ℚ), 0, 0), (0, (1 : ℚ), 0, 0)] 1 =
      [("B".data, [1])] := by
  constructor
  · decide
  · decide

/-- C8: every precondition guard raises immediately, producing no result:
`search` before `index` (no embeddings yet), `Ranker.rank` before
`build_bm25`, and `Ranker.get_top_tables_from_chunks` before `build_bm25`. -/
theorem precondition_errors :
    (∀ (bm25Okapi : List (List Str) → List Str → List ℚ)
      (encode_query : Str → List ℚ) (st : SSState) (query : Str),
      st.embeddings = none →
      schema_search bm25Okapi encode_query st query =
        .error "Embeddings not generated. Call index() before search()") ∧
    (∀ (r : Ranker) (query : Str) (query_embedding : List ℚ)
      (embeddings : List (List ℚ)), r.bm25 = none →
      r.rank query query_embedding embeddings =
        .error "BM25 index not built. Call build_bm25() first") ∧
    (∀ (r : Ranker) (ranked : List (Nat × ℚ × ℚ × ℚ)) (top_k : Nat),
      r.chunks = none →
      get_top_tables_from_chunks r ranked top_k =
        .error "Chunks not initialized. Call build_bm25() first") := by
  refine ⟨?_, ?_, ?_⟩
  · intro bm25Okapi encode_query st query h
    unfold schema_search
    rw [h]
  · intro r query query_embedding embeddings h
    unfold Ranker.rank
    rw [h]
  · intro r ranked top_k h
    unfold get_top_tables_from_chunks
    rw [h]

/-! ## Hybrid-strategy lemmas -/

theorem foldl_min_le (xs : List ℚ) : ∀ a : ℚ,
    xs.foldl min a ≤ a ∧ ∀ x ∈ xs, xs.foldl min a ≤ x := by
  induction xs with
  | nil => intro a; exact ⟨le_refl a, by simp⟩
  | cons c cs ih =>
    intro a
    simp only [List.foldl_cons]
    obtain ⟨h1, h2⟩ := ih (min a c)
    refine ⟨le_trans h1 (min_le_left a c), ?_⟩
    intro x hx
    rcases List.mem_cons.mp hx with rfl | hx
    · exact le_trans h1 (min_le_right a x)
    · exact h2 x hx

theorem foldl_max_ge (xs : List ℚ) : ∀ a : ℚ,
    a ≤ xs.foldl max a ∧ ∀ x ∈ xs, x ≤ xs.foldl max a := by
  induction xs with
  | nil => intro a; exact ⟨le_refl a, by simp⟩
  | cons c cs ih =>
    intro a
    simp only [List.foldl_cons]
    obtain ⟨h1, h2⟩ := ih (max a c)
    refine ⟨le_trans (le_max_left a c) h1, ?_⟩
    intro x hx
    rcases List.mem_cons.mp hx with rfl | hx
    · exact le_trans (le_max_right a x) h1
    · exact h2 x hx

theorem pyMin_le (xs : List ℚ) (x : ℚ) (hx : x ∈ xs) : pyMin xs ≤ x := by
  cases xs with
  | nil => cases hx
  | cons c cs =>
    rcases List.mem_cons.mp hx with rfl | hx
    · calc pyMin (x :: cs) = cs.foldl min x := rfl
        _ ≤ x := (foldl_min_le cs x).1
    · exact (foldl_min_le cs c).2 x hx

theorem le_pyMax (xs : List ℚ) (x : ℚ) (hx : x ∈ xs) : x ≤ pyMax xs := by
  cases xs with
  | nil => cases hx
  | cons c cs =>
    rcases List.mem_cons.mp hx with rfl | hx
    · calc x ≤ cs.foldl max x := (foldl_max_ge cs x).1
        _ = pyMax (x :: cs) := rfl
    · exact (foldl_max_ge cs c).2 x hx

theorem getD_map_of_lt (f : ℚ → ℚ) : ∀ (xs : List ℚ) (i : Nat), i < xs.length →
    (xs.map f).getD i 0 = f (xs.getD i 0) := by
  intro xs
  induction xs with
  | nil => intro i hi; simp at hi
  | cons c cs ih =>
    intro i hi
    cases i with
    | zero => simp
    | succ i => simpa using ih i (by simpa using hi)

theorem getD_zipWith_of_lt (f : ℚ → ℚ → ℚ) :
    ∀ (as bs : List ℚ) (i : Nat), i < as.length → i < bs.length →
    (List.zipWith f as bs).getD i 0 = f (as.getD i 0) (bs.getD i 0) := by
  intro as
  induction as with
  | nil => intro bs i hi; simp at hi
  | cons a as ih =>
    intro bs i hia hib
    cases bs with
    | nil => simp at hib
    | cons b bs =>
      cases i with
      | zero => simp
      | succ i => simpa using ih bs i (by simpa using hia) (by simpa using hib)

theorem getD_mem_of_lt (xs : List ℚ) (i : Nat) (hi : i < xs.length) :
    xs.getD i 0 ∈ xs := by
  induction xs generalizing i with
  | nil => simp at hi
  | cons c cs ih =>
    cases i with
    | zero => simp
    | succ i =>
      simp only [List.getD_cons_succ]
      exact List.mem_cons_of_mem c (ih i (by simpa using hi))

/-- C9: the Hybrid strategy's per-chunk score is
`semantic_weight * semantic_norm + (1 - semantic_weight) * fuzzy_norm`,
with each score vector independently min-max normalized into `[0,1]` and a
zero-range vector normalized to all zeros; construction fails for a weight
outside `[0,1]`. -/
theorem hybrid_fusion_and_normalization :
    (∀ (w : ℚ) (s : HybridStrategy), hybrid_strategy_init w = some s →
      ∀ (semantic_scores fuzzy_scores : List ℚ) (i : Nat),
        i < semantic_scores.length → i < fuzzy_scores.length →
        (hybrid_scores s semantic_scores fuzzy_scores).getD i 0 =
          w * (min_max_normalize semantic_scores).getD i 0 +
          (1 - w) * (min_max_normalize fuzzy_scores).getD i 0) ∧
    (∀ (xs : List ℚ) (i : Nat), i < xs.length →
      0 ≤ (min_max_normalize xs).getD i 0 ∧ (min_max_normalize xs).getD i 0 ≤ 1) ∧
    (∀ xs : List ℚ, pyMax xs - pyMin xs = 0 →
      min_max_normalize xs = xs.map (fun _ => 0)) ∧
    (∀ w : ℚ, w < 0 ∨ 1 < w → hybrid_strategy_init w = none) := by
  refine ⟨?_, ?_, ?_, ?_⟩
  · intro w s hs semantic_scores fuzzy_scores i hsem hfuz
    unfold hybrid_strategy_init at hs
    by_cases hw : 0 ≤ w ∧ w ≤ 1
    · rw [if_pos hw] at hs
      obtain rfl : (⟨w, 1 - w⟩ : HybridStrategy) = s := by
        simpa using hs
      unfold hybrid_scores
      have hlsem : i < (min_max_normalize semantic_scores).length := by
        unfold min_max_normalize
        by_cases h : 0 < pyMax semantic_scores - pyMin semantic_scores
        · rw [if_pos h]; simpa using hsem
        · rw [if_neg h]; simpa using hsem
      have hlfuz : i < (min_max_normalize fuzzy_scores).length := by
        unfold min_max_normalize
        by_cases h : 0 < pyMax fuzzy_scores - pyMin fuzzy_scores
        · rw [if_pos h]; simpa using hfuz
        · rw [if_neg h]; simpa using hfuz
      exact getD_zipWith_of_lt _ _ _ i hlsem hlfuz
    · rw [if_neg hw] at hs
      cases hs
  · intro xs i hi
    unfold min_max_normalize
    by_cases hr : 0 < pyMax xs - pyMin xs
    · rw [if_pos hr, getD_map_of_lt _ xs i hi]
      have hmem := getD_mem_of_lt xs i hi
      constructor
      · exact div_nonneg (sub_nonneg.mpr (pyMin_le xs _ hmem)) (le_of_lt hr)
      · rw [div_le_one hr]
        exact sub_le_sub_right (le_pyMax xs _ hmem) _
    · rw [if_neg hr, getD_map_of_lt _ xs i hi]
      simp
  · intro xs h
    unfold min_max_normalize
    rw [if_neg (by rw [h]; exact lt_irrefl 0)]
  · intro w hw
    unfold hybrid_strategy_init
    have hnot : ¬ (0 ≤ w ∧ w ≤ 1) := by
      rintro ⟨h0, h1⟩
      rcases hw with hw | hw
      · exact absurd h0 (not_le.mpr hw)
      · exact absurd h1 (not_le.mpr hw)
    rw [if_neg hnot]

/-! ## Embedding-cache lemmas -/

/-- After any non-forced `load_or_generate` call, all three cache files are
present and the saved fingerprint is the calling configuration's. -/
theorem load_or_generate_post (encode : String → Nat → Bool → Str → List ℚ)
    (c : SSConfig) (chunks : List Chunk) (d : CacheDir) :
    (load_or_generate encode c chunks false d).2.1.config_file =
      some (current_cache_config c) ∧
    (load_or_generate encode c chunks false d).2.1.embeddings_file.isSome ∧
    (load_or_generate encode c chunks false d).2.1.metadata_file.isSome ∧
    (load_or_generate encode c chunks false d).2.1.embeddings_file.getD [] =
      (load_or_generate encode c chunks false d).1 := by
  unfold load_or_generate
  by_cases hv : is_cache_valid c d
  · rw [if_pos (by simp [hv])]
    unfold is_cache_valid at hv
    match hd1 : d.embeddings_file, hd2 : d.metadata_file, hd3 : d.config_file with
    | some e, some m, some cached =>
      rw [hd1, hd2, hd3] at hv
      simp only [decide_eq_true_eq] at hv
      simp [hd1, hd2, hd3, hv]
    | none, _, _ => rw [hd1] at hv; simp at hv
    | some _, none, _ => rw [hd1, hd2] at hv; simp at hv
    | some _, some _, none => rw [hd1, hd2, hd3] at hv; simp at hv
  · rw [if_neg (by simp [hv])]
    simp

/-- C6: after a first non-forced `load_or_generate` call under `c1`, a
second non-forced call whose configuration differs in `embedding_model` or
`max_tokens` misses the cache and regenerates, while a second call whose
fingerprint fields (`use_llm_summary`, `max_tokens`, `embedding_model`) all
agree with `c1` hits the cache and returns the very vectors of the first
call — whatever the other configuration fields do. -/
theorem cache_fingerprint_invalidation
    (encode : String → Nat → Bool → Str → List ℚ) (c1 c2 : SSConfig)
    (chunks1 chunks2 : List Chunk) (d0 : CacheDir) :
    ((c2.embedding_model ≠ c1.embedding_model ∨ c2.max_tokens ≠ c1.max_tokens) →
      (load_or_generate encode c2 chunks2 false
        (load_or_generate encode c1 chunks1 false d0).2.1).2.2 = false ∧
      (load_or_generate encode c2 chunks2 false
        (load_or_generate encode c1 chunks1 false d0).2.1).1 =
        chunks2.map (fun ch =>
          encode c2.embedding_model c2.batch_size c2.normalize ch.content)) ∧
    (current_cache_config c2 = current_cache_config c1 →
      (load_or_generate encode c2 chunks2 false
        (load_or_generate encode c1 chunks1 false d0).2.1).2.2 = true ∧
      (load_or_generate encode c2 chunks2 false
        (load_or_generate encode c1 chunks1 false d0).2.1).1 =
        (load_or_generate encode c1 chunks1 false d0).1) := by
  obtain ⟨hcfg, hemb, hmeta, hval⟩ := load_or_generate_post encode c1 chunks1 d0
  set d1 := (load_or_generate encode c1 chunks1 false d0).2.1 with hd1
  constructor
  · intro hdiff
    have hinvalid : is_cache_valid c2 d1 = false := by
      unfold is_cache_valid
      match h1 : d1.embeddings_file, h2 : d1.metadata_file, h3 : d1.config_file with
      | some e, some m, some cached =>
        rw [h3] at hcfg
        have : cached = current_cache_config c1 := by simpa using hcfg
        subst this
        simp only [decide_eq_false_iff_not]
        intro heq
        unfold current_cache_config at heq
        rcases hdiff with hdiff | hdiff
        · exact hdiff (congrArg CacheConfig.embedding_model heq).symm
        · exact hdiff (congrArg CacheConfig.max_tokens heq).symm
      | none, _, _ => rfl
      | some _, none, _ => rfl
      | some _, some _, none => rfl
    unfold load_or_generate
    rw [if_neg (by simp [hinvalid])]
    exact ⟨rfl, rfl⟩
  · intro hsame
    have hvalid : is_cache_valid c2 d1 = true := by
      unfold is_cache_valid
      match h1 : d1.embeddings_file, h2 : d1.metadata_file, h3 : d1.config_file with
      | some e, some m, some cached =>
        rw [h3] at hcfg
        have : cached = current_cache_config c1 := by simpa using hcfg
        subst this
        simp [hsame]
      | none, _, _ => rw [h1] at hemb; simp at hemb
      | some _, none, _ => rw [h2] at hmeta; simp at hmeta
      | some _, some _, none => rw [h3] at hcfg; simp at hcfg
    unfold load_or_generate
    rw [if_pos (by simp [hvalid])]
    exact ⟨rfl, hval⟩

/-! ## Counterexamples and concrete witnesses -/

/-- C3, counterexample to the claim as stated: a table with no columns, no
foreign keys and no indices renders only the header line `Table: users`,
whose token estimate fits any reasonable budget, yet chunking yields **no**
chunk at all (the loop refuses to emit a header-only chunk), not exactly
one. -/
theorem chunk_table_empty_table_yields_none :
    estimate_tokens (to_markdown "users".data ⟨[], [], []⟩) ≤ 100 ∧
    chunk_table "users".data ⟨[], [], []⟩ 100 0 = [] := by
  constructor
  · decide
  · decide

/-- Witness for the amended C3 theorem at a concrete table. -/
theorem chunk_table_single_of_fits_witness :
    chunk_table "users".data ⟨["id".data, "email".data], [], []⟩ 100 0 =
      [⟨"users".data, to_markdown "users".data ⟨["id".data, "email".data], [], []⟩, 0,
        sumEst (to_markdown_lines "users".data ⟨["id".data, "email".data], [], []⟩)⟩] :=
  chunk_table_single_of_fits _ _ _ _ (by decide) (by decide) (by decide)

/-- C4, counterexample to the claim as stated, in two parts.  (a) The table
`t` with one column `aaa`, one foreign key `bbb` and one index `ccc`
renders content whose whole-string token estimate is 20, above the budget
19, yet chunking yields a single chunk: the loop accumulates per-line
estimates, which lose the newline characters and flooring slack of the
whole-string measure.  (b) With a 60-character column name and budget 10,
a produced chunk's token count exceeds the budget even after ignoring the
header's own cost — a single oversized line is never split. -/
theorem chunk_table_overflow_violations :
    (19 < estimate_tokens (to_markdown "t".data
        ⟨["aaa".data], ["bbb".data], ["ccc".data]⟩) ∧
      (chunk_table "t".data ⟨["aaa".data], ["bbb".data], ["ccc".data]⟩ 19 0).length = 1) ∧
    (10 < estimate_tokens (to_markdown "t".data
        ⟨[List.replicate 60 'a'], ["b".data], []⟩) ∧
      ∃ c ∈ chunk_table "t".data ⟨[List.replicate 60 'a'], ["b".data], []⟩ 10 0,
        10 < c.token_count - estimate_tokens ("Table: ".data ++ "t".data)) := by
  refine ⟨⟨by decide, by decide⟩, by decide, ?_⟩
  decide

/-- Witness for the amended C4 theorem at a concrete table. -/
theorem chunk_table_overflow_bounds_witness :
    2 ≤ (chunk_table "t".data ⟨[List.replicate 60 'a'], ["b".data], []⟩ 10 0).length ∧
    (∀ c ∈ chunk_table "t".data ⟨[List.replicate 60 'a'], ["b".data], []⟩ 10 0,
      ("Table: ".data ++ "t".data) <+: c.content) ∧
    (∀ c ∈ chunk_table "t".data ⟨[List.replicate 60 'a'], ["b".data], []⟩ 10 0,
      3 ≤ (splitNl c.content).length → c.token_count ≤ 10) :=
  chunk_table_overflow_bounds "t".data ⟨[List.replicate 60 'a'], ["b".data], []⟩ 10 0
    (by decide) (by decide) (by decide)

/-- Witness for C5 at a concrete two-chunk table. -/
theorem base_chunk_table_sequential_ids_witness :
    ((base_chunk_table "s".data "t".data
        "X\naaaa bbbb cccc dddd\neeee ffff gggg hhhh".data 12).getD 0 default).chunk_id =
      mk_chunk_id "s".data "t".data 0 ∧
    ((base_chunk_table "s".data "t".data
        "X\naaaa bbbb cccc dddd\neeee ffff gggg hhhh".data 12).getD 0 default).chunk_id ≠
    ((base_chunk_table "s".data "t".data
        "X\naaaa bbbb cccc dddd\neeee ffff gggg hhhh".data 12).getD 1 default).chunk_id :=
  ⟨(base_chunk_table_sequential_ids "s".data "t".data
      "X\naaaa bbbb cccc dddd\neeee ffff gggg hhhh".data 12).1 0 (by decide),
   (base_chunk_table_sequential_ids "s".data "t".data
      "X\naaaa bbbb cccc dddd\neeee ffff gggg hhhh".data 12).2 0 1
      (by decide) (by decide) (by decide)⟩

/-- Witness for the amended C2 theorem at a concrete graph. -/
theorem get_neighbors_mem_iff_witness :
    "c" ∈ get_neighbors (⟨["a", "b", "c"], [("a", "c"), ("b", "c")]⟩ : Graph String)
        "a" 1 ↔
      ("a" ∈ (⟨["a", "b", "c"], [("a", "c"), ("b", "c")]⟩ : Graph String).nodes ∧
        "c" ≠ "a" ∧ ∃ k, k ≤ 1 ∧
        (chainN (fun x y => (x, y) ∈
            (⟨["a", "b", "c"], [("a", "c"), ("b", "c")]⟩ : Graph String).edges) k "a" "c" ∨
         chainN (fun x y => (y, x) ∈
            (⟨["a", "b", "c"], [("a", "c"), ("b", "c")]⟩ : Graph String).edges) k "a" "c")) :=
  get_neighbors_mem_iff _ "a" 1 "c"

/-- Witness for C7 at a concrete graph, hop pair and absent table. -/
theorem get_neighbors_algebra_witness :
    get_neighbors (⟨["a", "b", "c"], [("a", "c"), ("b", "c")]⟩ : Graph String) "a" 0 = [] ∧
    (1 ≤ 2 ∧ ∀ u ∈ get_neighbors
        (⟨["a", "b", "c"], [("a", "c"), ("b", "c")]⟩ : Graph String) "a" 1,
      u ∈ get_neighbors (⟨["a", "b", "c"], [("a", "c"), ("b", "c")]⟩ : Graph String) "a" 2) ∧
    get_neighbors (⟨["a", "b", "c"], [("a", "c"), ("b", "c")]⟩ : Graph String) "z" 3 = [] :=
  ⟨get_neighbors_algebra.1 _ "a",
   ⟨by decide, get_neighbors_algebra.2.1 _ "a" 1 2 (by decide)⟩,
   get_neighbors_algebra.2.2 _ "z" 3 (by decide)⟩

/-- Witness for C8 at concrete unbuilt states. -/
theorem precondition_errors_witness :
    schema_search (fun _ _ => []) (fun _ => [])
      ⟨1, 1, 5, 3, 1, [], [], none, ⟨1, 1, none, none⟩, ⟨[], []⟩⟩ "q".data =
      .error "Embeddings not generated. Call index() before search()" ∧
    Ranker.rank ⟨1, 1, none, none⟩ "q".data [] [] =
      .error "BM25 index not built. Call build_bm25() first" ∧
    get_top_tables_from_chunks ⟨1, 1, none, none⟩ [] 3 =
      .error "Chunks not initialized. Call build_bm25() first" :=
  ⟨precondition_errors.1 _ _ _ _ rfl,
   precondition_errors.2.1 _ _ _ _ rfl,
   precondition_errors.2.2 _ _ _ rfl⟩

/-- Witness for C9 at concrete weights and score vectors. -/
theorem hybrid_fusion_witness :
    (hybrid_scores ⟨1, 0⟩ [(3 : ℚ), 5] [(2 : ℚ), 2]).getD 0 0 =
      1 * (min_max_normalize [(3 : ℚ), 5]).getD 0 0 +
      (1 - 1) * (min_max_normalize [(2 : ℚ), 2]).getD 0 0 ∧
    (0 ≤ (min_max_normalize [(3 : ℚ), 5]).getD 0 0 ∧
      (min_max_normalize [(3 : ℚ), 5]).getD 0 0 ≤ 1) ∧
    min_max_normalize [(2 : ℚ), 2] = [(2 : ℚ), 2].map (fun _ => 0) ∧
    hybrid_strategy_init 2 = none :=
  ⟨hybrid_fusion_and_normalization.1 1 ⟨1, 0⟩ (by simp [hybrid_strategy_init])
      [3, 5] [2, 2] 0 (by decide) (by decide),
   hybrid_fusion_and_normalization.2.1 [3, 5] 0 (by decide),
   hybrid_fusion_and_normalization.2.2.1 [2, 2] (by simp [pyMax, pyMin]),
   hybrid_fusion_and_normalization.2.2.2 2 (Or.inr (by simp))⟩

/-- Witness for C10 at a concrete two-chunk corpus. -/
theorem rank_full_permutation_witness :
    ∃ out, Ranker.rank ⟨1, 1, some (fun _ => [(1 : ℚ), 0]), none⟩ "q".data
        [(1 : ℚ)] [[(1 : ℚ)], [(2 : ℚ)]] = .ok out ∧
      out.length = 2 ∧
      (out.map (fun t => t.1)).Perm (List.range 2) ∧
      out.Pairwise (fun a b => b.2.1 ≤ a.2.1) :=
  rank_full_permutation ⟨1, 1, some (fun _ => [(1 : ℚ), 0]), none⟩
    (fun _ => [(1 : ℚ), 0]) "q".data [(1 : ℚ)] [[(1 : ℚ)], [(2 : ℚ)]] 2
    rfl rfl (by decide) rfl

/-- Witness for C6 at concrete configurations: a model change regenerates,
a batch-size-only change still hits the cache. -/
theorem cache_fingerprint_invalidation_witness :
    ((load_or_generate (fun _ _ _ _ => [(0 : ℚ)]) ⟨false, 300, 50, "m2", 32, true⟩ []
        false
        (load_or_generate (fun _ _ _ _ => [(0 : ℚ)]) ⟨false, 300, 50, "m1", 32, true⟩ []
          false ⟨none, none, none⟩).2.1).2.2 = false) ∧
    ((load_or_generate (fun _ _ _ _ => [(0 : ℚ)]) ⟨false, 300, 50, "m1", 64, false⟩ []
        false
        (load_or_generate (fun _ _ _ _ => [(0 : ℚ)]) ⟨false, 300, 50, "m1", 32, true⟩ []
          false ⟨none, none, none⟩).2.1).2.2 = true) :=
  ⟨((cache_fingerprint_invalidation (fun _ _ _ _ => [(0 : ℚ)])
      ⟨false, 300, 50, "m1", 32, true⟩ ⟨false, 300, 50, "m2", 32, true⟩ [] []
      ⟨none, none, none⟩).1 (Or.inl (by decide))).1,
   ((cache_fingerprint_invalidation (fun _ _ _ _ => [(0 : ℚ)])
      ⟨false, 300, 50, "m1", 32, true⟩ ⟨false, 300, 50, "m1", 64, false⟩ [] []
      ⟨none, none, none⟩).2 (by decide)).1⟩
